import Mathlib

/-!
Verification of the hydrogen-atom analytical evaluator package.

The Python source (src/wavefunctions.py, src/schrodinger.py, src/__init__.py)
is shallowly embedded below.  Python ints become `ℤ`, Python floats become
exact numbers (`ℚ` where the computation is rational, `ℝ` where
transcendental functions appear), and a function that can raise `ValueError`
returns `Except String α`, with `Except.error` standing for the raise.
-/

open Finset

namespace Hydrogen

/-- Physical constant from wavefunctions.py: `BOHR_RADIUS = 1.0` (atomic units). -/
def BOHR_RADIUS : ℚ := 1

/-- Physical constant from wavefunctions.py: `RYDBERG_ENERGY = 0.5`. -/
def RYDBERG_ENERGY : ℚ := 1 / 2

/-- Embedding of `energy_eigenvalue(n)` from wavefunctions.py:
raises `ValueError` when `n < 1`, otherwise returns `-1.0 / (2 * n**2)`. -/
def energy_eigenvalue (n : ℤ) : Except String ℚ :=
  if n < 1 then Except.error "Principal quantum number n must be >= 1"
  else Except.ok (-1 / (2 * (n : ℚ) ^ 2))

/-- Embedding of `expectation_value_r(n, l)` from wavefunctions.py:
`BOHR_RADIUS * n**2 * (1.5 - l*(l+1)/(2*n**2))` (no validation in the source). -/
def expectation_value_r (n l : ℤ) : ℚ :=
  BOHR_RADIUS * (n : ℚ) ^ 2 * (3 / 2 - (l : ℚ) * (l + 1) / (2 * (n : ℚ) ^ 2))

/-- Embedding of `expectation_value_r_squared(n, l)` from wavefunctions.py:
`(BOHR_RADIUS * n)**2 * (n**2 * (5/2 + 1) - 3*l*(l+1)/2)`. -/
def expectation_value_r_squared (n l : ℤ) : ℚ :=
  (BOHR_RADIUS * (n : ℚ)) ^ 2 * ((n : ℚ) ^ 2 * (5 / 2 + 1) - 3 * (l : ℚ) * (l + 1) / 2)

/-- Embedding of the default Coulomb potential closure in
`solve_radial_schrodinger` (schrodinger.py):
`lambda r: -1.0 / np.where(r > 0, r, 1e-10)`, evaluated pointwise. -/
noncomputable def coulomb_default (r : ℝ) : ℝ :=
  -1 / (if 0 < r then r else 1 / 10 ^ 10)

/-- Embedding of `solve_radial_schrodinger(r, n, l)` from schrodinger.py.
The body computes `E = energy_eigenvalue(n)` (which can raise for `n < 1`),
never touches the grid `r` or `l` beyond binding them, and executes
`return None, E`: the radial-wavefunction slot of the returned pair is the
Python value `None` (modelled as `Option.none`), the energy slot is `E`. -/
def solve_radial_schrodinger (r : List ℝ) (n l : ℤ) :
    Except String (Option (List ℝ) × ℚ) :=
  match energy_eigenvalue n with
  | Except.error s => Except.error s
  | Except.ok E => Except.ok (none, E)

/-- Embedding of `RadialSolver.shooting_method(n)` from schrodinger.py:
the body computes `E = energy_eigenvalue(n)` and then falls through a bare
`pass`, so the call returns the Python value `None` (modelled `Option.none`)
when `energy_eigenvalue` does not raise. -/
def shooting_method (n : ℤ) : Except String (Option Unit) :=
  match energy_eigenvalue n with
  | Except.error s => Except.error s
  | Except.ok _ => Except.ok none

/-- The module files actually present in the package directory `src/` of the
repository (besides `__init__.py`): `wavefunctions.py` and `schrodinger.py`. -/
def existing_modules : List String := ["wavefunctions", "schrodinger"]

/-- The sibling modules that `src/__init__.py` imports, in source order:
`.wavefunctions`, `.schrodinger`, `.numerics`, `.visualization`,
`.spectroscopy`. -/
def init_imports : List String :=
  ["wavefunctions", "schrodinger", "numerics", "visualization", "spectroscopy"]

/-- Sequential module resolution as Python performs it while executing
`__init__.py`: each listed module is imported in order, and the first one
whose file does not exist aborts the whole package import with an
ImportError naming that module. -/
def resolve_imports : List String → Except String Unit
  | [] => Except.ok ()
  | m :: rest =>
      if existing_modules.contains m then resolve_imports rest
      else Except.error m

/-- Importing the package `src` executes `__init__.py`, i.e. resolves
its list of imports in order. -/
def import_package : Except String Unit := resolve_imports init_imports

/-- Embedding of `scipy.special.genlaguerre(k, a)` evaluated at `x`
(used by wavefunctions.py with `k = n - l - 1`, `a = 2*l + 1`): the
generalized Laguerre polynomial
`L_k^a(x) = sum_i (-1)^i C(k+a, k-i) x^i / i!`. -/
noncomputable def genlaguerre (k a : ℕ) (x : ℝ) : ℝ :=
  ∑ i ∈ range (k + 1),
    (-1 : ℝ) ^ i * ((k + a).choose (k - i)) / (Nat.factorial i) * x ^ i

/-- The coefficient of `x^i` in `genlaguerre k a`. -/
noncomputable def lagC (k a i : ℕ) : ℝ :=
  (-1 : ℝ) ^ i * ((k + a).choose (k - i)) / (Nat.factorial i)

/-- The normalization constant computed in `hydrogen_radial`
(wavefunctions.py line 48):
`np.sqrt((2.0/n)**3 * factorial(n-l-1) / (2*n*factorial(n+l)))`. -/
noncomputable def radial_norm (n l : ℤ) : ℝ :=
  Real.sqrt ((2 / (n : ℝ)) ^ 3 * (Nat.factorial (n - l - 1).toNat) /
    (2 * (n : ℝ) * Nat.factorial (n + l).toNat))

/-- The value computed by `hydrogen_radial` after its validation passes
(wavefunctions.py lines 48-59): with `rho = 2*r/n`,
`R = norm * np.exp(-rho/2) * rho**l * L(rho)` where
`L = genlaguerre(n-l-1, 2*l+1)`. -/
noncomputable def radial_val (r : ℝ) (n l : ℤ) : ℝ :=
  radial_norm n l * Real.exp (-(2 * r / (n : ℝ)) / 2) *
    (2 * r / (n : ℝ)) ^ l.toNat *
    genlaguerre (n - l - 1).toNat (2 * l + 1).toNat (2 * r / (n : ℝ))

/-- Embedding of `hydrogen_radial(r, n, l, normalized=True)` from
wavefunctions.py: raises `ValueError` when `n < 1 or l < 0 or l >= n`,
otherwise returns the closed-form radial value.  The `normalized` flag is
bound but never read by the source body. -/
noncomputable def hydrogen_radial (r : ℝ) (n l : ℤ) ( normalized : Bool) :
    Except String ℝ :=
  if n < 1 ∨ l < 0 ∨ n ≤ l then Except.error "Invalid quantum numbers"
  else Except.ok (radial_val r n l)

/-- The Legendre polynomial `P_l`, written through its standard closed form
`P_l(x) = 2^(-l) * sum_k C(l,k)^2 (x-1)^(l-k) (x+1)^k`.  Auxiliary for the
model of `scipy.special.sph_harm`. -/
noncomputable def legendreP (l : ℕ) : Polynomial ℝ :=
  Polynomial.C (((2 : ℝ) ^ l)⁻¹) *
    ∑ k ∈ range (l + 1),
      Polynomial.C ((l.choose k : ℝ) ^ 2) *
        (Polynomial.X - 1) ^ (l - k) * (Polynomial.X + 1) ^ k

/-- The associated Legendre function `P_l^m` for `m ≥ 0`, with the
Condon-Shortley phase:
`P_l^m(x) = (-1)^m (1-x^2)^(m/2) (d/dx)^m P_l(x)`.  Auxiliary for the model
of `scipy.special.sph_harm`. -/
noncomputable def assocLegendre (l m : ℕ) (x : ℝ) : ℝ :=
  (-1 : ℝ) ^ m * (Real.sqrt (1 - x ^ 2)) ^ m *
    (Polynomial.derivative^[m] (legendreP l)).eval x

/-- Modelled from the spec: `scipy.special.sph_harm(m, l, phi, theta)`, the
"standard special-function routine" producing the complex spherical
harmonic, for `m ≥ 0`:
`Y_l^m = sqrt((2l+1)/(4 pi) * (l-m)!/(l+m)!) * P_l^m(cos theta) * e^(i m phi)`. -/
noncomputable def sph_harm_nonneg (m l : ℕ) (phi theta : ℝ) : ℂ :=
  ((Real.sqrt ((2 * l + 1) / (4 * Real.pi) *
      (Nat.factorial (l - m)) / (Nat.factorial (l + m))) *
    assocLegendre l m (Real.cos theta) : ℝ) : ℂ) *
    Complex.exp (Complex.I * m * phi)

/-- Modelled from the spec: `scipy.special.sph_harm(m, l, phi, theta)` for
arbitrary integer `m`, extending `sph_harm_nonneg` to `m < 0` through the
standard reflection `Y_l^(-m) = (-1)^m conj(Y_l^m)`. -/
noncomputable def sph_harm (m l : ℤ) (phi theta : ℝ) : ℂ :=
  if 0 ≤ m then sph_harm_nonneg m.toNat l.toNat phi theta
  else ((-1 : ℂ)) ^ (-m).toNat *
    (starRingEnd ℂ) (sph_harm_nonneg (-m).toNat l.toNat phi theta)

/-- Embedding of `spherical_harmonic(theta, phi, l, m)` from
wavefunctions.py: raises `ValueError` when `abs(m) > l`, otherwise returns
`sph_harm(m, l, phi, theta)`. -/
noncomputable def spherical_harmonic (theta phi : ℝ) (l m : ℤ) :
    Except String ℂ :=
  if l < |m| then Except.error "Invalid quantum numbers"
  else Except.ok (sph_harm m l phi theta)

/-- Embedding of `hydrogen_wavefunction(r, theta, phi, n, l, m,
normalize=True)` from wavefunctions.py:
`R = hydrogen_radial(r, n, l, normalized=normalize)`, then
`Y = spherical_harmonic(theta, phi, l, m)`, then `psi = R * Y`; a raise in
either step propagates in that order. -/
noncomputable def hydrogen_wavefunction (r theta phi : ℝ) (n l m : ℤ)
    (normalize : Bool) : Except String ℂ :=
  match hydrogen_radial r n l normalize with
  | Except.error s => Except.error s
  | Except.ok R =>
      match spherical_harmonic theta phi l m with
      | Except.error s => Except.error s
      | Except.ok Y => Except.ok ((R : ℂ) * Y)

/-- Embedding of `probability_density_radial(r, n, l)` from
wavefunctions.py: `R = hydrogen_radial(r, n, l, normalized=True)`, then
`P = r**2 * np.abs(R)**2`. -/
noncomputable def probability_density_radial (r : ℝ) (n l : ℤ) :
    Except String ℝ :=
  match hydrogen_radial r n l true with
  | Except.error s => Except.error s
  | Except.ok R => Except.ok (r ^ 2 * |R| ^ 2)

/-- Embedding of `np.linspace(a, b, N)`: the `i`-th of `N` evenly spaced
points from `a` to `b` inclusive. -/
noncomputable def linspace (a b : ℝ) (N : ℕ) (i : ℕ) : ℝ :=
  a + (b - a) * i / ((N - 1 : ℕ) : ℝ)

/-- Embedding of `scipy.integrate.trapezoid(y, x)` on `N` samples:
`sum_i (x_(i+1) - x_i) * (y_i + y_(i+1)) / 2`. -/
noncomputable def trapezoid (y x : ℕ → ℝ) (N : ℕ) : ℝ :=
  ∑ i ∈ range (N - 1), (x (i + 1) - x i) * (y i + y (i + 1)) / 2

/-- Embedding of `normalization_check(n, l, r_max=50, num_points=1000)` from
wavefunctions.py: `r = np.linspace(0, r_max, num_points)`;
`R = hydrogen_radial(r, n, l, normalized=True)` (the vectorized call raises
`ValueError` exactly when the quantum numbers are invalid, independently of
the grid, so the guard is hoisted here); `P = r**2 * np.abs(R)**2`;
`integral = trapezoid(P, r)`. -/
noncomputable def normalization_check (n l : ℤ) (r_max : ℝ)
    (num_points : ℕ) : Except String ℝ :=
  if n < 1 ∨ l < 0 ∨ n ≤ l then Except.error "Invalid quantum numbers"
  else
    Except.ok (trapezoid
      (fun i => (linspace 0 r_max num_points i) ^ 2 *
        |radial_val (linspace 0 r_max num_points i) n l| ^ 2)
      (linspace 0 r_max num_points) num_points)

/-- Written from the spec's words (section 4.2 and claim C2): "a
normalization constant times exp(−ρ/2)·ρ^l·L_(n−l−1)^(2l+1)(ρ) with
ρ = 2r/n" and "norm = sqrt((2/n)^3 * (n-l-1)! / (2n * (n+l)!))".  To be
compared with the source-derived `radial_val`. -/
noncomputable def radial_spec (r : ℝ) (n l : ℤ) : ℝ :=
  let rho : ℝ := 2 * r / (n : ℝ)
  Real.sqrt ((2 / (n : ℝ)) ^ 3 * (Nat.factorial (n - l - 1).toNat) /
      (2 * (n : ℝ) * Nat.factorial (n + l).toNat)) *
    Real.exp (-rho / 2) * rho ^ l.toNat *
    genlaguerre (n - l - 1).toNat (2 * l + 1).toNat rho

/-- Written from the spec's words (claim C5): "the trapezoid-rule
quadrature of r^2 * |R(r)|^2 on a uniform grid of num_points points over
[0, r_max]".  The uniform grid has spacing `r_max / (N - 1)`.  To be
compared with the source-derived `normalization_check`. -/
noncomputable def trapezoid_quadrature (f : ℝ → ℝ) (r_max : ℝ) (N : ℕ) : ℝ :=
  ∑ i ∈ range (N - 1),
    (r_max / ((N - 1 : ℕ) : ℝ)) *
      (f (r_max * i / ((N - 1 : ℕ) : ℝ)) +
        f (r_max * (i + 1) / ((N - 1 : ℕ) : ℝ))) / 2

/-! ### Helper lemmas -/

/-- The degree-zero generalized Laguerre polynomial is constantly 1. -/
theorem genlaguerre_zero (a : ℕ) (x : ℝ) : genlaguerre 0 a x = 1 := by
  simp [genlaguerre]

/-- The ground-state normalization constant evaluates to 2. -/
theorem radial_norm_ground : radial_norm 1 0 = 2 := by
  unfold radial_norm
  norm_num
  rw [show (4 : ℝ) = 2 ^ 2 by norm_num, Real.sqrt_sq (by norm_num)]

/-- The ground-state radial wavefunction in closed form: `2 * exp (-r)`. -/
theorem radial_val_ground (r : ℝ) : radial_val r 1 0 = 2 * Real.exp (-r) := by
  unfold radial_val
  rw [radial_norm_ground]
  norm_num [genlaguerre_zero]
  ring

/-- The ground-state call to `hydrogen_radial` succeeds with value
`2 * exp (-r)`. -/
theorem hydrogen_radial_ground (r : ℝ) (b : Bool) :
    hydrogen_radial r 1 0 b = Except.ok (2 * Real.exp (-r)) := by
  unfold hydrogen_radial
  rw [if_neg (by omega), radial_val_ground]

/-- The generalized Laguerre polynomial as a sum of its coefficients. -/
theorem genlaguerre_eq_sum (k a : ℕ) (x : ℝ) :
    genlaguerre k a x = ∑ i ∈ range (k + 1), lagC k a i * x ^ i := rfl

/-- Alternating Vandermonde-type convolution:
`sum_i (-1)^i C(k,i) C(M+i,s) = (-1)^k C(M, s-k)` (zero when `s < k`). -/
theorem alt_choose_sum (k : ℕ) :
    ∀ M s : ℕ,
      ∑ i ∈ range (k + 1), (-1 : ℝ) ^ i * (k.choose i) * ((M + i).choose s)
        = (-1) ^ k * (if k ≤ s then ((M.choose (s - k) : ℕ) : ℝ) else 0) := by
  induction k with
  | zero => intro M s; simp
  | succ k ih =>
    intro M s
    have hT : (∑ i ∈ range (k + 1),
          (-1 : ℝ) ^ i * (k.choose (i + 1)) * ((M + 1 + i).choose s))
        = (M.choose s : ℝ)
          - ∑ i ∈ range (k + 1), (-1 : ℝ) ^ i * (k.choose i) * ((M + i).choose s) := by
      rw [Finset.sum_range_succ, Nat.choose_succ_self, Finset.sum_range_succ']
      have hneg : (∑ i ∈ range k,
            (-1 : ℝ) ^ (i + 1) * (k.choose (i + 1)) * ((M + (i + 1)).choose s))
          = -∑ i ∈ range k,
              (-1 : ℝ) ^ i * (k.choose (i + 1)) * ((M + 1 + i).choose s) := by
        rw [← Finset.sum_neg_distrib]
        refine Finset.sum_congr rfl fun i _ => ?_
        rw [show M + (i + 1) = M + 1 + i by omega]
        ring
      rw [hneg]
      simp only [Nat.add_zero, Nat.choose_zero_right, pow_zero, Nat.cast_zero,
        Nat.cast_one, one_mul, mul_zero, zero_mul]
      ring
    have step : (∑ i ∈ range (k + 2),
          (-1 : ℝ) ^ i * ((k + 1).choose i) * ((M + i).choose s))
        = (∑ i ∈ range (k + 1), (-1 : ℝ) ^ i * (k.choose i) * ((M + i).choose s))
          - ∑ i ∈ range (k + 1), (-1 : ℝ) ^ i * (k.choose i) * ((M + 1 + i).choose s) := by
      rw [Finset.sum_range_succ']
      have hsplit : ∀ i ∈ range (k + 1),
          (-1 : ℝ) ^ (i + 1) * ((k + 1).choose (i + 1)) * ((M + (i + 1)).choose s)
            = -((-1 : ℝ) ^ i * (k.choose i) * ((M + 1 + i).choose s))
              - (-1 : ℝ) ^ i * (k.choose (i + 1)) * ((M + 1 + i).choose s) := by
        intro i _
        rw [Nat.choose_succ_succ, show M + (i + 1) = M + 1 + i by omega]
        push_cast
        ring
      rw [Finset.sum_congr rfl hsplit, Finset.sum_sub_distrib,
        Finset.sum_neg_distrib, hT]
      simp only [Nat.add_zero, Nat.choose_zero_right, pow_zero, Nat.cast_one,
        one_mul]
      ring
    rw [step, ih M, ih (M + 1)]
    by_cases h1 : k + 1 ≤ s
    · have hk : k ≤ s := by omega
      rw [if_pos hk, if_pos hk, if_pos h1,
        show s - k = (s - (k + 1)) + 1 by omega, Nat.choose_succ_succ]
      push_cast
      ring
    · by_cases h2 : k ≤ s
      · have hks : s = k := by omega
        subst hks
        rw [if_pos (le_refl _), if_pos (le_refl _), if_neg h1, Nat.sub_self]
        simp only [Nat.choose_zero_right, Nat.cast_one]
        ring
      · rw [if_neg h2, if_neg h2, if_neg h1]
        ring

/-- Each Laguerre coefficient times a factorial, rewritten through binomial
coefficients so that `alt_choose_sum` applies. -/
theorem lag_term_eq (k a s i : ℕ) (h : i ≤ k) :
    lagC k a i * ((a + s + i).factorial : ℝ)
      = ((k + a).factorial : ℝ) * (s.factorial) / (k.factorial)
        * ((-1 : ℝ) ^ i * (k.choose i) * ((a + s + i).choose s)) := by
  unfold lagC
  rw [Nat.cast_choose ℝ (show k - i ≤ k + a by omega),
    show k + a - (k - i) = a + i by omega,
    Nat.cast_choose ℝ (show s ≤ a + s + i by omega),
    show a + s + i - s = a + i by omega,
    Nat.cast_choose ℝ (show i ≤ k by omega)]
  have h1 : (Nat.factorial i : ℝ) ≠ 0 := Nat.cast_ne_zero.mpr (Nat.factorial_ne_zero i)
  have h2 : (Nat.factorial (k - i) : ℝ) ≠ 0 := Nat.cast_ne_zero.mpr (Nat.factorial_ne_zero _)
  have h3 : (Nat.factorial (a + i) : ℝ) ≠ 0 := Nat.cast_ne_zero.mpr (Nat.factorial_ne_zero _)
  have h4 : (Nat.factorial s : ℝ) ≠ 0 := Nat.cast_ne_zero.mpr (Nat.factorial_ne_zero s)
  have h5 : (Nat.factorial k : ℝ) ≠ 0 := Nat.cast_ne_zero.mpr (Nat.factorial_ne_zero k)
  field_simp
  ring

/-- The `s`-th weighted moment of the Laguerre coefficients in closed form. -/
theorem lag_moment (k a s : ℕ) :
    ∑ i ∈ range (k + 1), lagC k a i * ((a + s + i).factorial : ℝ)
      = ((k + a).factorial : ℝ) * (s.factorial) / (k.factorial) * (-1) ^ k
        * (if k ≤ s then (((a + s).choose (s - k) : ℕ) : ℝ) else 0) := by
  rw [Finset.sum_congr rfl
    (fun i hi => lag_term_eq k a s i (by
      have := Finset.mem_range.mp hi; omega)),
    ← Finset.mul_sum, alt_choose_sum k (a + s) s]
  ring

/-- Integrability of `exp (-x) * x ^ m` on `(0, ∞)`. -/
theorem integrableOn_exp_mul_pow (m : ℕ) :
    MeasureTheory.IntegrableOn (fun x : ℝ => Real.exp (-x) * x ^ m)
      (Set.Ioi 0) := by
  refine (Real.GammaIntegral_convergent
    (show (0 : ℝ) < m + 1 by positivity)).congr_fun ?_ measurableSet_Ioi
  intro x hx
  dsimp only
  rw [show ((m : ℝ) + 1) - 1 = (m : ℕ) by norm_num,
    Real.rpow_natCast]

/-- The moment integral `∫ x in (0,∞), exp (-x) * x ^ m = m!`. -/
theorem integral_exp_mul_pow (m : ℕ) :
    (∫ x in Set.Ioi (0 : ℝ), Real.exp (-x) * x ^ m) = (m.factorial : ℝ) := by
  have h := Real.Gamma_eq_integral (show (0 : ℝ) < m + 1 by positivity)
  have heq : Set.EqOn (fun x : ℝ => Real.exp (-x) * x ^ (((m : ℝ) + 1) - 1))
      (fun x : ℝ => Real.exp (-x) * x ^ m) (Set.Ioi 0) := by
    intro x hx
    dsimp only
    rw [show ((m : ℝ) + 1) - 1 = (m : ℕ) by norm_num,
      Real.rpow_natCast]
  rw [MeasureTheory.setIntegral_congr_fun measurableSet_Ioi heq] at h
  rw [← h, show ((m : ℝ) + 1) = ((m : ℕ) : ℝ) + 1 by norm_num,
    Real.Gamma_nat_eq_factorial]

/-- The squared-norm integral of the generalized Laguerre polynomial with
the extra power `x^(a+1)`:
`∫ x in (0,∞), exp (-x) x^(a+1) (L_k^a x)^2 = (k+a)!/k! * (2k+a+1)`. -/
theorem laguerre_sq_integral (k a : ℕ) :
    (∫ x in Set.Ioi (0 : ℝ),
        Real.exp (-x) * x ^ (a + 1) * (genlaguerre k a x) ^ 2)
      = ((k + a).factorial : ℝ) / k.factorial * (2 * k + a + 1) := by
  have hint : ∀ m : ℕ, MeasureTheory.Integrable
      (fun x : ℝ => Real.exp (-x) * x ^ m)
      (MeasureTheory.volume.restrict (Set.Ioi 0)) :=
    fun m => integrableOn_exp_mul_pow m
  have hpt : ∀ x : ℝ, Real.exp (-x) * x ^ (a + 1) * (genlaguerre k a x) ^ 2
      = ∑ j ∈ range (k + 1), ∑ i ∈ range (k + 1),
          (lagC k a j * lagC k a i) * (Real.exp (-x) * x ^ (a + 1 + j + i)) := by
    intro x
    rw [genlaguerre_eq_sum, sq, Finset.sum_mul_sum, Finset.mul_sum]
    refine Finset.sum_congr rfl fun j _ => ?_
    rw [Finset.mul_sum]
    refine Finset.sum_congr rfl fun i _ => ?_
    rw [pow_add, pow_add]
    ring
  have hsum : (∫ x in Set.Ioi (0 : ℝ),
        Real.exp (-x) * x ^ (a + 1) * (genlaguerre k a x) ^ 2)
      = ∑ j ∈ range (k + 1), lagC k a j *
          (((k + a).factorial : ℝ) * ((j + 1).factorial) / (k.factorial) * (-1) ^ k
            * (if k ≤ j + 1 then (((a + (j + 1)).choose (j + 1 - k) : ℕ) : ℝ) else 0)) := by
    simp_rw [hpt]
    rw [MeasureTheory.integral_finset_sum _
      (fun j _ => MeasureTheory.integrable_finset_sum _
        (fun i _ => (hint (a + 1 + j + i)).const_mul _))]
    refine Finset.sum_congr rfl fun j _ => ?_
    rw [MeasureTheory.integral_finset_sum _
      (fun i _ => (hint (a + 1 + j + i)).const_mul _)]
    have hin : (∑ i ∈ range (k + 1),
          ∫ x in Set.Ioi (0 : ℝ),
            (lagC k a j * lagC k a i) * (Real.exp (-x) * x ^ (a + 1 + j + i)))
        = lagC k a j * ∑ i ∈ range (k + 1),
            lagC k a i * ((a + (j + 1) + i).factorial : ℝ) := by
      rw [Finset.mul_sum]
      refine Finset.sum_congr rfl fun i _ => ?_
      rw [MeasureTheory.integral_mul_left, integral_exp_mul_pow,
        show a + 1 + j + i = a + (j + 1) + i by omega]
      ring
    rw [hin, lag_moment k a (j + 1)]
  rw [hsum]
  cases k with
  | zero =>
      rw [Finset.sum_range_one]
      norm_num [lagC, Nat.choose_one_right]
  | succ k =>
      rw [Finset.sum_range_succ, Finset.sum_range_succ,
        Finset.sum_eq_zero (fun j hj => by
          rw [if_neg (by have := Finset.mem_range.mp hj; omega)]
          ring), zero_add]
      rw [if_pos (by omega), if_pos (by omega),
        show k + 1 + 1 - (k + 1) = 1 by omega,
        show k + 1 - (k + 1) = 0 by omega,
        Nat.choose_zero_right, Nat.choose_one_right]
      unfold lagC
      rw [show k + 1 - k = 1 by omega, show k + 1 - (k + 1) = 0 by omega,
        Nat.choose_one_right, Nat.choose_zero_right]
      have hf1 : (Nat.factorial k : ℝ) ≠ 0 :=
        Nat.cast_ne_zero.mpr (Nat.factorial_ne_zero k)
      rcases Nat.even_or_odd k with hp | hp
      · rw [hp.neg_one_pow, (hp.add_one).neg_one_pow]
        simp only [Nat.factorial_succ]
        push_cast
        field_simp
        ring
      · rw [hp.neg_one_pow, (hp.add_one).neg_one_pow]
        simp only [Nat.factorial_succ]
        push_cast
        field_simp
        ring

/-- For every valid pair of quantum numbers, the exact normalization
integral of the radial probability density equals 1:
`∫ r in (0,∞), r^2 |R_(n,l)(r)|^2 dr = 1`. -/
theorem radial_normalization (n l : ℤ) (h1 : 1 ≤ n) (h2 : 0 ≤ l) (h3 : l < n) :
    (∫ r in Set.Ioi (0 : ℝ), r ^ 2 * |radial_val r n l| ^ 2) = 1 := by
  set k : ℕ := (n - l - 1).toNat with hk
  set a : ℕ := (2 * l + 1).toNat with ha
  have hnR : (0 : ℝ) < (n : ℝ) := by exact_mod_cast (show (0 : ℤ) < n by omega)
  have hkl : (n + l).toNat = k + a := by omega
  have hlt : l.toNat * 2 + 2 = a + 1 := by omega
  have hkR : (k : ℝ) = (n : ℝ) - (l : ℝ) - 1 := by
    have : (k : ℤ) = n - l - 1 := by omega
    exact_mod_cast congrArg (Int.cast : ℤ → ℝ) this
  have haR : (a : ℝ) = 2 * (l : ℝ) + 1 := by
    have : (a : ℤ) = 2 * l + 1 := by omega
    exact_mod_cast congrArg (Int.cast : ℤ → ℝ) this
  have hNsq : radial_norm n l ^ 2
      = (2 / (n : ℝ)) ^ 3 * (Nat.factorial k) /
          (2 * (n : ℝ) * Nat.factorial (k + a)) := by
    rw [radial_norm, ← hk, hkl, Real.sq_sqrt]
    positivity
  have hb : (0 : ℝ) < 2 / (n : ℝ) := by positivity
  have hpt : Set.EqOn (fun r : ℝ => r ^ 2 * |radial_val r n l| ^ 2)
      (fun r : ℝ => (radial_norm n l ^ 2 * ((n : ℝ) / 2) ^ 2) *
        (Real.exp (-(2 / (n : ℝ) * r)) * (2 / (n : ℝ) * r) ^ (a + 1) *
          (genlaguerre k a (2 / (n : ℝ) * r)) ^ 2))
      (Set.Ioi 0) := by
    intro r _
    dsimp only
    rw [sq_abs]
    unfold radial_val
    rw [← hk, ← ha, show 2 / (n : ℝ) * r = 2 * r / (n : ℝ) by ring]
    simp only [mul_pow]
    rw [show Real.exp (-(2 * r / (n : ℝ)) / 2) ^ 2
          = Real.exp (-(2 * r / (n : ℝ))) by
        rw [sq, ← Real.exp_add]; congr 1; ring,
      ← pow_mul, ← hlt, pow_add]
    field_simp
    ring
  rw [MeasureTheory.setIntegral_congr_fun measurableSet_Ioi hpt,
    MeasureTheory.integral_comp_mul_left_Ioi
      (fun x => (radial_norm n l ^ 2 * ((n : ℝ) / 2) ^ 2) *
        (Real.exp (-x) * x ^ (a + 1) * (genlaguerre k a x) ^ 2)) 0 hb,
    mul_zero, smul_eq_mul, MeasureTheory.integral_mul_left,
    laguerre_sq_integral k a, hNsq]
  have hf1 : (Nat.factorial k : ℝ) ≠ 0 :=
    Nat.cast_ne_zero.mpr (Nat.factorial_ne_zero k)
  have hf2 : (Nat.factorial (k + a) : ℝ) ≠ 0 :=
    Nat.cast_ne_zero.mpr (Nat.factorial_ne_zero (k + a))
  rw [hkR, haR]
  field_simp
  ring

/-! ### Claim theorems -/

/-- C1: for every integer `n ≥ 1`, `energy_eigenvalue n` returns exactly
`-1/(2*n^2)` (in particular `energy_eigenvalue 1 = -1/2`), and for every
`n < 1` it raises a `ValueError` instead of returning a value. -/
theorem C1_energy_eigenvalue :
    (∀ n : ℤ, 1 ≤ n → energy_eigenvalue n = Except.ok (-1 / (2 * (n : ℚ) ^ 2))) ∧
    energy_eigenvalue 1 = Except.ok (-(1 : ℚ) / 2) ∧
    (∀ n : ℤ, n < 1 → ∃ s, energy_eigenvalue n = Except.error s) := by
  refine ⟨fun n hn => ?_, ?_, fun n hn => ?_⟩
  · unfold energy_eigenvalue
    rw [if_neg (by omega)]
  · norm_num [energy_eigenvalue]
  · exact ⟨_, by unfold energy_eigenvalue; rw [if_pos hn]⟩

/-- Witness for C1 at `n = 3` (valid) and `n = 0` (invalid). -/
theorem C1_energy_eigenvalue_witness :
    ((1 : ℤ) ≤ 3 ∧ energy_eigenvalue 3 = Except.ok (-1 / (2 * (3 : ℚ) ^ 2))) ∧
    ((0 : ℤ) < 1 ∧ ∃ s, energy_eigenvalue 0 = Except.error s) :=
  ⟨⟨by decide, C1_energy_eigenvalue.1 3 (by decide)⟩,
    ⟨by decide, C1_energy_eigenvalue.2.2 0 (by decide)⟩⟩

/-- C2: for every `r ≥ 0` and valid quantum numbers `n ≥ 1`, `0 ≤ l < n`,
`hydrogen_radial` returns the spec's closed-form normalized expression
(`radial_spec`), and it raises a `ValueError` exactly when `n < 1`,
`l < 0`, or `l ≥ n`. -/
theorem C2_hydrogen_radial :
    ∀ (r : ℝ) (n l : ℤ) (b : Bool),
      (0 ≤ r → 1 ≤ n → 0 ≤ l → l < n →
        hydrogen_radial r n l b = Except.ok (radial_spec r n l)) ∧
      ((n < 1 ∨ l < 0 ∨ n ≤ l) ↔ ∃ s, hydrogen_radial r n l b = Except.error s) := by
  intro r n l b
  constructor
  · intro _ h1 h2 h3
    unfold hydrogen_radial
    rw [if_neg (by omega)]
    rfl
  · constructor
    · intro h
      exact ⟨_, by unfold hydrogen_radial; rw [if_pos h]⟩
    · rintro ⟨s, hs⟩
      by_contra hcon
      unfold hydrogen_radial at hs
      rw [if_neg hcon] at hs
      cases hs

/-- Witness for C2 at `r = 0`, `n = 1`, `l = 0`, flag `true`; the error
direction of the iff is exercised at `n = 0`. -/
theorem C2_hydrogen_radial_witness :
    ((0 : ℝ) ≤ 0 ∧ (1 : ℤ) ≤ 1 ∧ (0 : ℤ) ≤ 0 ∧ (0 : ℤ) < 1 ∧
      hydrogen_radial 0 1 0 true = Except.ok (radial_spec 0 1 0)) ∧
    (((0 : ℤ) < 1 ∨ (0 : ℤ) < 0 ∨ (0 : ℤ) ≤ 0) ∧
      ∃ s, hydrogen_radial 0 0 0 true = Except.error s) :=
  ⟨⟨le_refl 0, by decide, by decide, by decide,
      (C2_hydrogen_radial 0 1 0 true).1 (le_refl 0) (by decide) (by decide) (by decide)⟩,
    ⟨Or.inl (by decide),
      (C2_hydrogen_radial 0 0 0 true).2.mp (Or.inl (by decide))⟩⟩

/-- C4: importing the package executes `__init__.py`, whose import list
names `numerics`, a module absent from the repository, so the package
importing aborts with an ImportError (at `numerics`) and never reaches the
`Except.ok` state: no function of the library surface is reachable through
the package. -/
theorem C4_import_package :
    import_package = Except.error "numerics" ∧
    import_package ≠ Except.ok () ∧
    existing_modules.contains "numerics" = false := by
  refine ⟨rfl, ?_, rfl⟩
  intro h
  simp [import_package, resolve_imports, existing_modules, init_imports] at h

/-- C6: `expectation_value_r 1 0` is exactly `3/2` Bohr radii, and the 2s
state is more diffuse than the 2p state:
`expectation_value_r 2 0 > expectation_value_r 2 1`. -/
theorem C6_expectation_value_r :
    expectation_value_r 1 0 = 3 / 2 ∧
    expectation_value_r 2 1 < expectation_value_r 2 0 := by
  constructor
  · norm_num [expectation_value_r, BOHR_RADIUS]
  · norm_num [expectation_value_r, BOHR_RADIUS]

/-- C10: the `normalized` flag of `hydrogen_radial` and the `normalize`
flag of `hydrogen_wavefunction` are bound but never read, so the value
returned with the flag `false` always equals the value returned with the
flag `true`. -/
theorem C10_flags_no_effect :
    ∀ (r theta phi : ℝ) (n l m : ℤ),
      hydrogen_radial r n l false = hydrogen_radial r n l true ∧
      hydrogen_wavefunction r theta phi n l m false =
        hydrogen_wavefunction r theta phi n l m true :=
  fun _ _ _ _ _ _ => ⟨rfl, rfl⟩

/-- C3 counterexample: `solve_radial_schrodinger` does produce a result
value to the caller.  On valid quantum numbers the call returns the pair
`(None, E)` whose energy slot is the analytical eigenvalue `-1/(2n^2)`:
two calls differing only in `n` return different values, so the returned
value carries a genuine input-dependent result, refuting "produce no
result value to the caller" for `solve_radial_schrodinger`. -/
theorem C3_counterexample :
    solve_radial_schrodinger [1] 1 0 = Except.ok (none, -1 / 2) ∧
    solve_radial_schrodinger [1] 2 0 = Except.ok (none, -1 / 8) ∧
    solve_radial_schrodinger [1] 1 0 ≠ solve_radial_schrodinger [1] 2 0 := by
  have e1 : solve_radial_schrodinger [1] 1 0 = Except.ok (none, -1 / 2) := by
    unfold solve_radial_schrodinger energy_eigenvalue
    rw [if_neg (by decide)]
    norm_num
  have e2 : solve_radial_schrodinger [1] 2 0 = Except.ok (none, -1 / 8) := by
    unfold solve_radial_schrodinger energy_eigenvalue
    rw [if_neg (by decide)]
    norm_num
  refine ⟨e1, e2, fun h => ?_⟩
  rw [e1, e2] at h
  simp only [Except.ok.injEq, Prod.mk.injEq] at h
  exact absurd h.2 (by norm_num)

/-- C3 (amended): for every grid `r` and every `n ≥ 1`,
`solve_radial_schrodinger` returns no numerical wavefunction — the first
slot of the returned pair is the Python value `None` — but it does return
the analytical energy eigenvalue `-1/(2n^2)` in the second slot; and
`RadialSolver.shooting_method` returns no result at all (`None`). -/
theorem C3_amended :
    ∀ (r : List ℝ) (n l : ℤ), 1 ≤ n →
      solve_radial_schrodinger r n l =
        Except.ok (none, -1 / (2 * (n : ℚ) ^ 2)) ∧
      shooting_method n = Except.ok none := by
  intro r n l hn
  have hcond : ¬ n < 1 := by omega
  constructor
  · unfold solve_radial_schrodinger energy_eigenvalue
    rw [if_neg hcond]
  · unfold shooting_method energy_eigenvalue
    rw [if_neg hcond]

/-- Witness for the amended C3 at the empty grid and `n = 1`, `l = 0`. -/
theorem C3_amended_witness :
    (1 : ℤ) ≤ 1 ∧
    (solve_radial_schrodinger [] 1 0 =
        Except.ok (none, -1 / (2 * (1 : ℚ) ^ 2)) ∧
      shooting_method 1 = Except.ok none) :=
  ⟨by decide, C3_amended [] 1 0 (by decide)⟩

/-- C7: `spherical_harmonic theta phi l m` raises a `ValueError` whenever
`|m| > l` (for every angle pair), and does not raise — it returns a value —
for `l ≥ 0` with `|m| ≤ l`. -/
theorem C7_spherical_harmonic :
    ∀ (theta phi : ℝ) (l m : ℤ),
      (l < |m| → ∃ s, spherical_harmonic theta phi l m = Except.error s) ∧
      (0 ≤ l → |m| ≤ l → ∃ y, spherical_harmonic theta phi l m = Except.ok y) := by
  intro theta phi l m
  constructor
  · intro h
    exact ⟨_, by unfold spherical_harmonic; rw [if_pos h]⟩
  · intro _ h
    exact ⟨_, by unfold spherical_harmonic; rw [if_neg (not_lt.mpr h)]⟩

/-- Witness for C7: the raise at `l = 0`, `m = 1` and the non-raise at
`l = 0`, `m = 0`, both at angles `theta = 0`, `phi = 0`. -/
theorem C7_spherical_harmonic_witness :
    ((0 : ℤ) < |(1 : ℤ)| ∧ ∃ s, spherical_harmonic 0 0 0 1 = Except.error s) ∧
    ((0 : ℤ) ≤ 0 ∧ |(0 : ℤ)| ≤ 0 ∧ ∃ y, spherical_harmonic 0 0 0 0 = Except.ok y) :=
  ⟨⟨by decide, (C7_spherical_harmonic 0 0 0 1).1 (by decide)⟩,
    ⟨by decide, by decide, (C7_spherical_harmonic 0 0 0 0).2 (by decide) (by decide)⟩⟩

/-- C8: on valid inputs, `hydrogen_wavefunction` is exactly the product of
the value of `hydrogen_radial` and the value of `spherical_harmonic`, and
`probability_density_radial` is exactly `r^2 * |R|^2` for the value `R` of
`hydrogen_radial`: both are pure compositions. -/
theorem C8_composition :
    ∀ (r theta phi : ℝ) (n l m : ℤ), 1 ≤ n → 0 ≤ l → l < n → |m| ≤ l →
      ∃ R Y, hydrogen_radial r n l true = Except.ok R ∧
        spherical_harmonic theta phi l m = Except.ok Y ∧
        hydrogen_wavefunction r theta phi n l m true = Except.ok ((R : ℂ) * Y) ∧
        probability_density_radial r n l = Except.ok (r ^ 2 * |R| ^ 2) := by
  intro r theta phi n l m h1 h2 h3 h4
  refine ⟨radial_val r n l, sph_harm m l phi theta, ?_, ?_, ?_, ?_⟩
  · unfold hydrogen_radial
    rw [if_neg (by omega)]
  · unfold spherical_harmonic
    rw [if_neg (not_lt.mpr h4)]
  · unfold hydrogen_wavefunction hydrogen_radial spherical_harmonic
    rw [if_neg (by omega), if_neg (not_lt.mpr h4)]
  · unfold probability_density_radial hydrogen_radial
    rw [if_neg (by omega)]

/-- Witness for C8 at `r = 0`, `theta = 0`, `phi = 0`, `n = 1`, `l = 0`,
`m = 0`. -/
theorem C8_composition_witness :
    (1 : ℤ) ≤ 1 ∧ (0 : ℤ) ≤ 0 ∧ (0 : ℤ) < 1 ∧ |(0 : ℤ)| ≤ 0 ∧
    ∃ R Y, hydrogen_radial 0 1 0 true = Except.ok R ∧
      spherical_harmonic 0 0 0 0 = Except.ok Y ∧
      hydrogen_wavefunction 0 0 0 1 0 0 true = Except.ok ((R : ℂ) * Y) ∧
      probability_density_radial 0 1 0 = Except.ok ((0 : ℝ) ^ 2 * |R| ^ 2) :=
  ⟨by decide, by decide, by decide, by decide,
    C8_composition 0 0 0 1 0 0 (by decide) (by decide) (by decide) (by decide)⟩

/-- C9: the ground-state radial wavefunction is monotonically
non-increasing for `r > 0`: whenever `0 < r1 < r2` the value of
`hydrogen_radial` at `r2` is at most its value at `r1`. -/
theorem C9_ground_state_monotone :
    ∀ (r1 r2 v1 v2 : ℝ), 0 < r1 → r1 < r2 →
      hydrogen_radial r1 1 0 true = Except.ok v1 →
      hydrogen_radial r2 1 0 true = Except.ok v2 →
      v2 ≤ v1 := by
  intro r1 r2 v1 v2 _ h12 hv1 hv2
  rw [hydrogen_radial_ground] at hv1 hv2
  cases hv1
  cases hv2
  have : Real.exp (-r2) ≤ Real.exp (-r1) :=
    Real.exp_le_exp.mpr (by linarith)
  linarith

/-- Witness for C9 at `r1 = 1`, `r2 = 2`. -/
theorem C9_ground_state_monotone_witness :
    (0 : ℝ) < 1 ∧ (1 : ℝ) < 2 ∧
    2 * Real.exp (-2) ≤ 2 * Real.exp (-1) :=
  ⟨by norm_num, by norm_num,
    C9_ground_state_monotone 1 2 (2 * Real.exp (-1)) (2 * Real.exp (-2))
      (by norm_num) (by norm_num)
      (hydrogen_radial_ground 1 true) (hydrogen_radial_ground 2 true)⟩

/-- C5: for every valid pair `(n, l)`, `normalization_check` computes
exactly the trapezoid-rule quadrature of `r^2 * |R_(n,l)(r)|^2` on a
uniform grid of `num_points` points over `[0, r_max]`
(`trapezoid_quadrature`, written from the spec's words); and for every
valid pair `(n, l)` the quantity this quadrature approximates is 1: the
exact normalization integral of the radial density over `(0, ∞)` equals 1,
which is the "approximately 1 within numerical-integration tolerance for a
sufficiently large truncated domain" content of the claim. -/
theorem C5_normalization_check :
    (∀ (n l : ℤ) (r_max : ℝ) (N : ℕ), 1 ≤ n → 0 ≤ l → l < n →
      normalization_check n l r_max N =
        Except.ok (trapezoid_quadrature
          (fun r => r ^ 2 * |radial_val r n l| ^ 2) r_max N)) ∧
    (∀ n l : ℤ, 1 ≤ n → 0 ≤ l → l < n →
      (∫ r in Set.Ioi (0 : ℝ), r ^ 2 * |radial_val r n l| ^ 2) = 1) := by
  constructor
  · intro n l r_max N h1 h2 h3
    unfold normalization_check
    rw [if_neg (by omega)]
    congr 1
    unfold trapezoid trapezoid_quadrature
    refine Finset.sum_congr rfl fun i _ => ?_
    have hl : ∀ j : ℕ, linspace 0 r_max N j = r_max * j / ((N - 1 : ℕ) : ℝ) :=
      fun j => by unfold linspace; ring
    simp only [hl]
    push_cast
    ring
  · exact radial_normalization

/-- Witness for C5 at `n = 1`, `l = 0` and the source defaults
`r_max = 50`, `num_points = 1000`, exercising both the quadrature identity
and the exact normalization integral. -/
theorem C5_normalization_check_witness :
    (1 : ℤ) ≤ 1 ∧ (0 : ℤ) ≤ 0 ∧ (0 : ℤ) < 1 ∧
    (normalization_check 1 0 50 1000 =
      Except.ok (trapezoid_quadrature
        (fun r => r ^ 2 * |radial_val r 1 0| ^ 2) 50 1000)) ∧
    (∫ r in Set.Ioi (0 : ℝ), r ^ 2 * |radial_val r 1 0| ^ 2) = 1 :=
  ⟨by decide, by decide, by decide,
    C5_normalization_check.1 1 0 50 1000 (by decide) (by decide) (by decide),
    C5_normalization_check.2 1 0 (by decide) (by decide) (by decide)⟩

end Hydrogen
